import Mathlib

/-!
Verification of the Yarn encrypted-state-capsule codec and login-key identity
protocol, as a shallow embedding of the TypeScript source.

Pure repository functions (`appStateGetHashBodyAndKey`, `appStateToHashWithKey`,
`togglePostLike`, `generatePostId`, the login-flow loop, the load effects) are
translated directly.  Platform and off-source primitives (Web Crypto AES-GCM,
`TextEncoder`/`TextDecoder`, the base64 and compression libraries, JSON
serialization) are modelled from the spec as executable functions satisfying
their documented contracts; each such model says so in its doc comment.

Bytes are modelled as `Nat` values below 256.
-/

namespace Yarn

/-- A list of naturals is a byte list when every entry is below 256. -/
def isBytes (l : List Nat) : Prop := ∀ b ∈ l, b < 256

instance (l : List Nat) : Decidable (isBytes l) := by
  unfold isBytes; infer_instance

/-! ## UTF-8 text codec

Modelled from the spec: the `utf8(...)` conversion of §6 and §4.6
(`TextEncoder`/`TextDecoder` are browser platform primitives, not part of the
repository source).  The encoder is the standard UTF-8 definition on Unicode
scalar values; the decoder is a (lenient) inverse. -/

/-- Standard UTF-8 encoding of one Unicode scalar value. -/
def utf8EncodeChar (c : Char) : List Nat :=
  if c.toNat < 0x80 then [c.toNat]
  else if c.toNat < 0x800 then [0xC0 + c.toNat / 64, 0x80 + c.toNat % 64]
  else if c.toNat < 0x10000 then
    [0xE0 + c.toNat / 4096, 0x80 + c.toNat / 64 % 64, 0x80 + c.toNat % 64]
  else
    [0xF0 + c.toNat / 262144, 0x80 + c.toNat / 4096 % 64, 0x80 + c.toNat / 64 % 64,
      0x80 + c.toNat % 64]

/-- Decode the continuation byte of a 2-byte UTF-8 sequence. -/
def utf8Tail1 (b1 : Nat) : List Nat → Option (Char × List Nat)
  | b2 :: rest => some (Char.ofNat ((b1 - 0xC0) * 64 + (b2 - 0x80)), rest)
  | [] => none

/-- Decode the continuation bytes of a 3-byte UTF-8 sequence. -/
def utf8Tail2 (b1 : Nat) : List Nat → Option (Char × List Nat)
  | b2 :: b3 :: rest =>
    some (Char.ofNat ((b1 - 0xE0) * 4096 + (b2 - 0x80) * 64 + (b3 - 0x80)), rest)
  | _ => none

/-- Decode the continuation bytes of a 4-byte UTF-8 sequence. -/
def utf8Tail3 (b1 : Nat) : List Nat → Option (Char × List Nat)
  | b2 :: b3 :: b4 :: rest =>
    some (Char.ofNat ((b1 - 0xF0) * 262144 + (b2 - 0x80) * 4096 + (b3 - 0x80) * 64 + (b4 - 0x80)),
      rest)
  | _ => none

/-- Decode one UTF-8 character from the front of a byte list. -/
def utf8DecodeStep : List Nat → Option (Char × List Nat)
  | [] => none
  | b1 :: rest =>
    if b1 < 0x80 then some (Char.ofNat b1, rest)
    else if b1 < 0xE0 then utf8Tail1 b1 rest
    else if b1 < 0xF0 then utf8Tail2 b1 rest
    else utf8Tail3 b1 rest

/-- Fuelled UTF-8 decoding loop. -/
def utf8DecodeAux : Nat → List Nat → Option (List Char)
  | _, [] => some []
  | 0, _ :: _ => none
  | fuel + 1, b :: rest =>
    match utf8DecodeStep (b :: rest) with
    | some (c, rest2) => (utf8DecodeAux fuel rest2).map (c :: ·)
    | none => none

/-- Decode a UTF-8 byte list back to characters. -/
def utf8DecodeList (l : List Nat) : Option (List Char) := utf8DecodeAux l.length l

/-- Model of `new TextEncoder().encode(s)`. -/
def textEncode (s : String) : List Nat := (s.data.map utf8EncodeChar).flatten

/-- Model of `new TextDecoder().decode(bytes)` restricted to valid input. -/
def textDecode (l : List Nat) : Option String := (utf8DecodeList l).map String.mk

/-! ## Base64 codecs

Modelled from the spec: §4.1 ByteCodec (`lib/base64`'s `arrayBufferToBase64` /
`base64ToArrayBuffer` are repository files absent from `src/`).  The model is
genuine RFC 4648 base64 with padding; the key codec below is base64url without
padding, as used by the JWK `k` field of `SymmetricKeyManager` (§4.3). -/

/-- First index of a character in a list, if present. -/
def charIndexIn (c : Char) : List Char → Option Nat
  | [] => none
  | x :: xs => if x = c then some 0 else (charIndexIn c xs).map (· + 1)

/-- The standard base64 alphabet. -/
def b64Alphabet : List Char :=
  "ABCDEFGHIJKLMNOPQRSTUVWXYZabcdefghijklmnopqrstuvwxyz0123456789+/".data

/-- The base64url alphabet (JWK key material). -/
def b64uAlphabet : List Char :=
  "ABCDEFGHIJKLMNOPQRSTUVWXYZabcdefghijklmnopqrstuvwxyz0123456789-_".data

def b64CharOf (n : Nat) : Char := b64Alphabet.getD n 'A'

def b64ValOf (c : Char) : Option Nat := charIndexIn c b64Alphabet

def b64uCharOf (n : Nat) : Char := b64uAlphabet.getD n 'A'

def b64uValOf (c : Char) : Option Nat := charIndexIn c b64uAlphabet

/-- RFC 4648 base64 encoding (with `=` padding) of a byte list. -/
def b64EncodeList : List Nat → List Char
  | [] => []
  | [b1] => [b64CharOf (b1 / 4), b64CharOf (b1 % 4 * 16), '=', '=']
  | [b1, b2] =>
    [b64CharOf (b1 / 4), b64CharOf (b1 % 4 * 16 + b2 / 16), b64CharOf (b2 % 16 * 4), '=']
  | b1 :: b2 :: b3 :: rest =>
    b64CharOf (b1 / 4) :: b64CharOf (b1 % 4 * 16 + b2 / 16) ::
      b64CharOf (b2 % 16 * 4 + b3 / 64) :: b64CharOf (b3 % 64) :: b64EncodeList rest

/-- Decode the final, possibly padded, base64 quad. -/
def b64DecodeQuad (c1 c2 c3 c4 : Char) : Option (List Nat) :=
  if c3 = '=' then
    if c4 = '=' then
      (b64ValOf c1).bind fun a1 => (b64ValOf c2).bind fun a2 =>
        if a2 % 16 = 0 then some [a1 * 4 + a2 / 16] else none
    else none
  else if c4 = '=' then
    (b64ValOf c1).bind fun a1 => (b64ValOf c2).bind fun a2 => (b64ValOf c3).bind fun a3 =>
      if a3 % 4 = 0 then some [a1 * 4 + a2 / 16, a2 % 16 * 16 + a3 / 4] else none
  else
    (b64ValOf c1).bind fun a1 => (b64ValOf c2).bind fun a2 =>
      (b64ValOf c3).bind fun a3 => (b64ValOf c4).bind fun a4 =>
        some [a1 * 4 + a2 / 16, a2 % 16 * 16 + a3 / 4, a3 % 4 * 64 + a4]

/-- RFC 4648 base64 decoding (strict, canonical padding). -/
def b64DecodeList : List Char → Option (List Nat)
  | [] => some []
  | [c1, c2, c3, c4] => b64DecodeQuad c1 c2 c3 c4
  | c1 :: c2 :: c3 :: c4 :: r1 :: rest =>
    (b64ValOf c1).bind fun a1 => (b64ValOf c2).bind fun a2 =>
      (b64ValOf c3).bind fun a3 => (b64ValOf c4).bind fun a4 =>
        (b64DecodeList (r1 :: rest)).map fun bs =>
          (a1 * 4 + a2 / 16) :: (a2 % 16 * 16 + a3 / 4) :: (a3 % 4 * 64 + a4) :: bs
  | [_] => none
  | [_, _] => none
  | [_, _, _] => none

/-- Model of `arrayBufferToBase64` from the missing `lib/base64` module. -/
def arrayBufferToBase64 (bs : List Nat) : String := String.mk (b64EncodeList bs)

/-- Model of `base64ToArrayBuffer` from the missing `lib/base64` module. -/
def base64ToArrayBuffer (s : String) : Option (List Nat) := b64DecodeList s.data

/-! ### base64url (JWK key text) -/

/-- base64url encoding without padding, the textual form of JWK key material. -/
def b64uEncodeList : List Nat → List Char
  | [] => []
  | [b1] => [b64uCharOf (b1 / 4), b64uCharOf (b1 % 4 * 16)]
  | [b1, b2] =>
    [b64uCharOf (b1 / 4), b64uCharOf (b1 % 4 * 16 + b2 / 16), b64uCharOf (b2 % 16 * 4)]
  | b1 :: b2 :: b3 :: rest =>
    b64uCharOf (b1 / 4) :: b64uCharOf (b1 % 4 * 16 + b2 / 16) ::
      b64uCharOf (b2 % 16 * 4 + b3 / 64) :: b64uCharOf (b3 % 64) :: b64uEncodeList rest

/-- Strict (canonical) base64url decoding without padding. -/
def b64uDecodeList : List Char → Option (List Nat)
  | [] => some []
  | [c1, c2] =>
    (b64uValOf c1).bind fun a1 => (b64uValOf c2).bind fun a2 =>
      if a2 % 16 = 0 then some [a1 * 4 + a2 / 16] else none
  | [c1, c2, c3] =>
    (b64uValOf c1).bind fun a1 => (b64uValOf c2).bind fun a2 => (b64uValOf c3).bind fun a3 =>
      if a3 % 4 = 0 then some [a1 * 4 + a2 / 16, a2 % 16 * 16 + a3 / 4] else none
  | c1 :: c2 :: c3 :: c4 :: rest =>
    (b64uValOf c1).bind fun a1 => (b64uValOf c2).bind fun a2 =>
      (b64uValOf c3).bind fun a3 => (b64uValOf c4).bind fun a4 =>
        (b64uDecodeList rest).map fun bs =>
          (a1 * 4 + a2 / 16) :: (a2 % 16 * 16 + a3 / 4) :: (a3 % 4 * 64 + a4) :: bs
  | [_] => none

/-! ## Cipher engine

Modelled from the spec: §4.4 CipherEngine.  Web Crypto `subtle.encrypt` /
`subtle.decrypt` with `{ name: "AES-GCM", iv }` are platform primitives, so the
model realises the AEAD functional contract: the ciphertext is the payload
followed by an authenticated trailer (16 key bytes then the 12-byte nonce, so
it is at least tag-sized longer than the payload), decryption under the
encrypting key and nonce recovers the payload, and decryption under any other
key of the same length fails (`CryptoError(AuthenticationFailed)`). -/

/-- Model of `window.crypto.subtle.encrypt` with AES-GCM parameters. -/
def subtleAesGcmEncrypt (iv keyBytes data : List Nat) : List Nat := data ++ (keyBytes ++ iv)

/-- Model of `window.crypto.subtle.decrypt` with AES-GCM parameters. -/
def subtleAesGcmDecrypt (iv keyBytes data : List Nat) : Option (List Nat) :=
  if keyBytes ++ iv = data.drop (data.length - (keyBytes ++ iv).length) ∧
      (keyBytes ++ iv).length ≤ data.length then
    some (data.take (data.length - (keyBytes ++ iv).length))
  else none

/-! ## Login keys (`logInKeyToCryptoKey`, `logInKeyEncrypt`, `logInKeyDecrypt`)

The login key is a string: the JWK `k` field of a generated 128-bit AES-GCM
key.  `logInKeyToCryptoKey` imports it; the import is modelled from the spec
(§4.3 `importText` fails with `BadKeyFormat` on malformed input) as strict
base64url decoding to exactly 16 key bytes.  The `iv: new Uint8Array(12)`
argument in the source is the all-zero 96-bit nonce. -/

/-- The fixed all-zero 96-bit nonce `new Uint8Array(12)`. -/
def zeroNonce : List Nat := List.replicate 12 0

/-- Model of `logInKeyToCryptoKey`: import the JWK `k` text as 128-bit key material. -/
def logInKeyToCryptoKey (logInKey : String) : Option (List Nat) :=
  (b64uDecodeList logInKey.data).bind fun kb => if kb.length = 16 then some kb else none

/-- Translation of `logInKeyEncrypt`: import key, AES-GCM-encrypt the UTF-8
bytes of `value` under the zero nonce, then base64-encode. -/
def logInKeyEncrypt (logInKey value : String) : Option String :=
  (logInKeyToCryptoKey logInKey).map fun kb =>
    arrayBufferToBase64 (subtleAesGcmEncrypt zeroNonce kb (textEncode value))

/-- Translation of `logInKeyDecrypt`: import key, base64-decode, AES-GCM-decrypt
under the zero nonce, then UTF-8-decode. -/
def logInKeyDecrypt (logInKey encryptedBase64 : String) : Option String :=
  (logInKeyToCryptoKey logInKey).bind fun kb =>
    (base64ToArrayBuffer encryptedBase64).bind fun encryptedBytes =>
      (subtleAesGcmDecrypt zeroNonce kb encryptedBytes).bind fun decrypted =>
        textDecode decrypted

/-! ## Stream compressor

Modelled from the spec: §4.2 StreamCompressor (`lib/compression`'s
`compressToBase64` / `decompressBase64` are repository files absent from
`src/`).  The contract verified is the one the spec states — `compress` and
`decompress` are mutual inverses on all valid text, text → binary → text —
realised here as the UTF-8 and base64 codecs around an identity deflate
stage. -/

/-- Model of `compressToBase64`. -/
def compressToBase64 (s : String) : String := arrayBufferToBase64 (textEncode s)

/-- Model of `decompressBase64`; fails with `CompressionError` on corrupt input. -/
def decompressBase64 (t : String) : Option String :=
  (base64ToArrayBuffer t).bind textDecode

/-! ## Conversation data model

Translated from the source type declarations `Like`, `Post`, `User`,
`AppState`.  JavaScript timestamps are modelled as `Nat`. -/

structure Like where
  username : String
  likedAt : Nat
deriving DecidableEq, Repr

structure Post where
  postId : String
  username : String
  createdAt : Nat
  content : String
  replyPostIds : List String
  likes : List Like
deriving DecidableEq, Repr

structure User where
  username : String
  imageIndex : Nat
  encryptedUsername : String
deriving DecidableEq, Repr

structure AppState where
  users : List User
  rootPostIds : List String
  allPosts : List Post
deriving DecidableEq, Repr

/-! ## Snapshot serialization

Modelled from the spec: §4.5 step 1, "Serialize snapshot to a canonical text
form", and its deserialize inverse (`JSON.stringify` / `JSON.parse` are
platform primitives, not repository source).  The model is a canonical
length-prefixed text form over the same record shape, with an exact parser. -/

/-- Decimal digits of `n`, least significant first; fuelled structural
recursion so the definition computes by kernel reduction (`fuel ≥ n`
suffices). -/
def digitsLEAux : Nat → Nat → List Nat
  | 0, n => [n % 10]
  | fuel + 1, n => if n < 10 then [n] else n % 10 :: digitsLEAux fuel (n / 10)

/-- Decimal digits of `n`, least significant first. -/
def digitsLE (n : Nat) : List Nat := digitsLEAux n n

def digitChar (d : Nat) : Char := "0123456789".data.getD d '0'

def isDigitChar (c : Char) : Bool := 48 ≤ c.toNat && c.toNat ≤ 57

/-- Decimal representation of `n`, most significant digit first. -/
def decimalChars (n : Nat) : List Char := (digitsLE n).reverse.map digitChar

/-- Consume a run of decimal digits, accumulating their value. -/
def parseNatAux : List Char → Nat → Nat × List Char
  | [], acc => (acc, [])
  | c :: rest, acc =>
    if isDigitChar c then parseNatAux rest (acc * 10 + (c.toNat - 48)) else (acc, c :: rest)

def serNat (n : Nat) : List Char := decimalChars n ++ [';']

def serStr (s : String) : List Char := decimalChars s.data.length ++ ':' :: s.data

def serListOf (f : α → List Char) (l : List α) : List Char :=
  decimalChars l.length ++ '[' :: (l.map f).flatten

def parseNatField (l : List Char) : Option (Nat × List Char) :=
  match parseNatAux l 0 with
  | (n, ';' :: r2) => some (n, r2)
  | _ => none

def parseStr (l : List Char) : Option (String × List Char) :=
  match parseNatAux l 0 with
  | (n, ':' :: r2) => if n ≤ r2.length then some (String.mk (r2.take n), r2.drop n) else none
  | _ => none

def parseCount (p : List Char → Option (α × List Char)) : Nat → List Char →
    Option (List α × List Char)
  | 0, l => some ([], l)
  | n + 1, l =>
    (p l).bind fun ar =>
      (parseCount p n ar.2).map fun asr => (ar.1 :: asr.1, asr.2)

def parseListOf (p : List Char → Option (α × List Char)) (l : List Char) :
    Option (List α × List Char) :=
  match parseNatAux l 0 with
  | (n, '[' :: r2) => parseCount p n r2
  | _ => none

def serLike (lk : Like) : List Char := serStr lk.username ++ serNat lk.likedAt

def serPost (p : Post) : List Char :=
  serStr p.postId ++ serStr p.username ++ serNat p.createdAt ++ serStr p.content ++
    serListOf serStr p.replyPostIds ++ serListOf serLike p.likes

def serUser (u : User) : List Char :=
  serStr u.username ++ serNat u.imageIndex ++ serStr u.encryptedUsername

def serAppState (a : AppState) : List Char :=
  serListOf serUser a.users ++ serListOf serStr a.rootPostIds ++ serListOf serPost a.allPosts

def parseLike (l : List Char) : Option (Like × List Char) :=
  (parseStr l).bind fun ur =>
    (parseNatField ur.2).map fun tr => ({ username := ur.1, likedAt := tr.1 }, tr.2)

def parsePost (l : List Char) : Option (Post × List Char) :=
  (parseStr l).bind fun idr =>
    (parseStr idr.2).bind fun unr =>
      (parseNatField unr.2).bind fun car =>
        (parseStr car.2).bind fun cor =>
          (parseListOf parseStr cor.2).bind fun rpr =>
            (parseListOf parseLike rpr.2).map fun lkr =>
              ({ postId := idr.1, username := unr.1, createdAt := car.1, content := cor.1,
                 replyPostIds := rpr.1, likes := lkr.1 }, lkr.2)

def parseUser (l : List Char) : Option (User × List Char) :=
  (parseStr l).bind fun unr =>
    (parseNatField unr.2).bind fun iir =>
      (parseStr iir.2).map fun eur =>
        ({ username := unr.1, imageIndex := iir.1, encryptedUsername := eur.1 }, eur.2)

def parseAppState (l : List Char) : Option (AppState × List Char) :=
  (parseListOf parseUser l).bind fun usr =>
    (parseListOf parseStr usr.2).bind fun rpr =>
      (parseListOf parsePost rpr.2).map fun apr =>
        ({ users := usr.1, rootPostIds := rpr.1, allPosts := apr.1 }, apr.2)

/-- Model of `JSON.stringify(appState)`: the canonical text form. -/
def jsonStringify (a : AppState) : String := String.mk (serAppState a)

/-- Model of `JSON.parse` on the canonical text form. -/
def jsonParse (t : String) : Option AppState :=
  match parseAppState t.data with
  | some (a, []) => some a
  | _ => none

/-- The next character, if any, is not a decimal digit. -/
def headNotDigit : List Char → Prop
  | [] => True
  | c :: _ => isDigitChar c = false

/-! ## Capsule codec pipeline — translated from the source. -/

/-- Translation of `appStateToHashWithoutKey`: JSON-serialize, compress,
encrypt under the login key (the result is already base64 text). -/
def appStateToHashWithoutKey (appState : AppState) (logInKey : String) : Option String :=
  logInKeyEncrypt logInKey (compressToBase64 (jsonStringify appState))

/-- Translation of `appStateToHashWithKey`: the keyless hash body, a `:`
delimiter, then the login key. -/
def appStateToHashWithKey (appState : AppState) (logInKey : String) : Option String :=
  (appStateToHashWithoutKey appState logInKey).map fun hashBody =>
    hashBody ++ ":" ++ logInKey

/-- Prepend a character to the first group of a split. -/
def consHead (c : Char) : List (List Char) → List (List Char)
  | [] => [[c]]
  | g :: gs => (c :: g) :: gs

/-- JavaScript `hash.split(":")` on character lists: splits at every colon,
keeping empty segments, with `"".split(":") == [""]`. -/
def splitOnColon : List Char → List (List Char)
  | [] => [[]]
  | c :: rest =>
    if c = ':' then [] :: splitOnColon rest
    else consHead c (splitOnColon rest)

/-- Translation of `appStateGetHashBodyAndKey`:
`const [encryptedBody, key = null] = hash.split(":")`. -/
def appStateGetHashBodyAndKey (hash : String) : String × Option String :=
  match splitOnColon hash.data with
  | [] => ("", none)
  | [b] => (String.mk b, none)
  | b :: k :: _ => (String.mk b, some (String.mk k))

/-- Translation of `appStateHashHasKey`. -/
def appStateHashHasKey (hash : String) : Bool :=
  (appStateGetHashBodyAndKey hash).2.isSome

/-- Translation of `appStateFromHashWithoutKey`: decrypt, decompress, parse. -/
def appStateFromHashWithoutKey (encryptedHashBody logInKey : String) : Option AppState :=
  (logInKeyDecrypt logInKey encryptedHashBody).bind fun compressed =>
    (decompressBase64 compressed).bind fun json => jsonParse json

/-- Translation of `appStateFromHashWithKey`; `none` is the thrown error when
the hash carries no key. -/
def appStateFromHashWithKey (hash : String) : Option AppState :=
  match appStateGetHashBodyAndKey hash with
  | (_, none) => none
  | (encryptedHashBody, some hashKey) => appStateFromHashWithoutKey encryptedHashBody hashKey

/-! ## Application state logic — translated from the source. -/

/-- Translation of `initialAppState`; `now()` is injected as `t` (spec §9:
ambient clock calls go behind an injectable provider). -/
def initialSeedPost (t : Nat) : Post :=
  { postId := "xrj391"
    username := "iamyarn"
    createdAt := t
    content := "Hi I'm Yarn! 😊\nA serverless, end-to-end encrypted, thread experience.\nFeel free to start a new thread or reply to this one.\nDon't forget to share! "
    replyPostIds := []
    likes := [] }

def initialAppState (t : Nat) : AppState :=
  { users := [{ username := "iamyarn", imageIndex := 0, encryptedUsername := "" }]
    allPosts := [initialSeedPost t]
    rootPostIds := ["xrj391"] }

/-- Translation of the `LogInModal` `onLogIn` handler in `PostsPage`: walk the
snapshot's user records in order, derive the proof for each username under the
candidate key, and return the first user whose stored `encryptedUsername`
equals the derived proof.  `none` models the "Log in key is not valid."
alert. -/
def onLogInFindUser (logInKey : String) (appState : AppState) : Option User :=
  appState.users.find? fun user =>
    logInKeyEncrypt logInKey user.username == some user.encryptedUsername

/-- Translation of the body of `togglePostLike` acting on the found post:
remove all of the acting user's like records when one exists, otherwise append
one fresh like record (`now()` injected as `t`). -/
def togglePostLikeOnPost (actingUsername : String) (t : Nat) (p : Post) : Post :=
  if (p.likes.find? fun o => actingUsername == o.username).isSome then
    { p with likes := p.likes.filter fun o => !(actingUsername == o.username) }
  else
    { p with likes := p.likes ++ [{ username := actingUsername, likedAt := t }] }

/-- Mutate the first post with a matching id, as `getPost` (first `find`) plus
an immer draft mutation does; when no post matches the source throws instead,
a case no claim concerns. -/
def updateFirstPost (f : Post → Post) (postId : String) : List Post → List Post
  | [] => []
  | p :: ps => if p.postId == postId then f p :: ps else p :: updateFirstPost f postId ps

/-- Translation of `togglePostLike` for a logged-in acting user. -/
def togglePostLike (actingUser : User) (t : Nat) (appState : AppState) (postId : String) :
    AppState :=
  { appState with
    allPosts := updateFirstPost (togglePostLikeOnPost actingUser.username t) postId
      appState.allPosts }

/-- Translation of `generatePostId`, with the ambient `crypto.getRandomValues`
draws injected as a stream of 3-byte values (spec §9) and the unbounded
`while (true)` loop given explicit fuel: run at most `fuel` iterations
starting from draw `idx`.  `btoa(String.fromCharCode(...))` is base64. -/
def generatePostIdAux (stream : Nat → List Nat) (appState : AppState) :
    Nat → Nat → Option String
  | _, 0 => none
  | idx, fuel + 1 =>
    if appState.allPosts.any fun o => o.postId == arrayBufferToBase64 (stream idx) then
      generatePostIdAux stream appState (idx + 1) fuel
    else some (arrayBufferToBase64 (stream idx))

def generatePostId (stream : Nat → List Nat) (appState : AppState) (fuel : Nat) :
    Option String :=
  generatePostIdAux stream appState 0 fuel

/-- The retry loop of `generatePostId` never returns, whatever the fuel. -/
def generatePostIdDiverges (stream : Nat → List Nat) (appState : AppState) : Prop :=
  ∀ fuel, generatePostId stream appState fuel = none

/-- Translation of the initial-load effect in `useHashAppState` (after the
session key is created): the pair is the installed snapshot and whether an
error alert was reported.  Empty fragment installs the default; a fragment
without an embedded key or a failing decode alerts and installs the default;
a successful decode installs the decoded snapshot. -/
def initialLoad (t : Nat) (hash : String) : AppState × Bool :=
  if hash = "" then (initialAppState t, false)
  else if ¬ appStateHashHasKey hash then (initialAppState t, true)
  else
    match appStateFromHashWithKey hash with
    | some s => (s, false)
    | none => (initialAppState t, true)

/-- Translation of the hash-change effect in `useHashAppState`: decode the new
fragment with the in-memory session key.  On a decode failure the rejected
promise is swallowed by `promiseDone` (a `console.error` log), so no state
update happens and the previously installed snapshot stays. -/
def hashChangeStep (t : Nat) (prev : AppState) (hash sessionKey : String) : AppState :=
  if hash = "" then initialAppState t
  else
    match appStateFromHashWithoutKey hash sessionKey with
    | some s => s
    | none => prev

/-- Usernames carrying a like on a post, in order. -/
def likeNamesOf (p : Post) : List String := p.likes.map Like.username

/-! ## Concrete fixtures used by witnesses and counterexamples. -/

/-- A valid login key: base64url of sixteen zero bytes. -/
def wKey : String := "AAAAAAAAAAAAAAAAAAAAAA"

/-- A second valid login key with different key material. -/
def wKeyB : String := "BAAAAAAAAAAAAAAAAAAAAA"

def wEmptyState : AppState := { users := [], rootPostIds := [], allPosts := [] }

def wProof : String := (logInKeyEncrypt wKey "alice").getD ""

def wUser : User := { username := "alice", imageIndex := 1, encryptedUsername := wProof }

def wLoginState : AppState := { users := [wUser], rootPostIds := [], allPosts := [] }

def wHash : String := (appStateToHashWithoutKey wEmptyState wKey).getD ""

def wLikedPost : Post :=
  { postId := "p1"
    username := "bob"
    createdAt := 3
    content := "hello"
    replyPostIds := []
    likes := [{ username := "bob", likedAt := 4 }] }

def wToggleState : AppState :=
  { users := [wUser], rootPostIds := ["p1"], allPosts := [wLikedPost] }

/-- The constant random stream that always draws the bytes of id "AAAA". -/
def cStream : Nat → List Nat := fun _ => [0, 0, 0]

def cPost : Post :=
  { postId := "AAAA"
    username := "x"
    createdAt := 0
    content := ""
    replyPostIds := []
    likes := [] }

/-- A state whose only post already uses id "AAAA". -/
def cState : AppState :=
  { users := []
    rootPostIds := ["AAAA"]
    allPosts := [cPost] }

/-! ## Theorems -/

theorem char_toNat_lt (c : Char) : c.toNat < 0x110000 := by
  have h := c.valid
  unfold UInt32.isValidChar Nat.isValidChar at h
  have he : c.toNat = c.val.toNat := rfl
  omega

theorem utf8EncodeChar_bytes (c : Char) : ∀ b ∈ utf8EncodeChar c, b < 256 := by
  intro b hb
  have hv := char_toNat_lt c
  unfold utf8EncodeChar at hb
  split_ifs at hb with h1 h2 h3 <;>
    simp only [List.mem_cons, List.not_mem_nil, or_false] at hb <;> omega

theorem utf8EncodeChar_ne_nil (c : Char) : utf8EncodeChar c ≠ [] := by
  unfold utf8EncodeChar
  split_ifs <;> simp

theorem utf8DecodeStep_encode (c : Char) (bs : List Nat) :
    utf8DecodeStep (utf8EncodeChar c ++ bs) = some (c, bs) := by
  have hv := char_toNat_lt c
  unfold utf8EncodeChar
  split_ifs with h1 h2 h3
  · simp only [List.cons_append, List.nil_append, utf8DecodeStep, if_pos h1,
      Char.ofNat_toNat]
  · simp only [List.cons_append, List.nil_append, utf8DecodeStep]
    rw [if_neg (by omega), if_pos (by omega)]
    simp only [utf8Tail1]
    have he : (0xC0 + c.toNat / 64 - 0xC0) * 64 + (0x80 + c.toNat % 64 - 0x80) = c.toNat := by
      omega
    rw [he, Char.ofNat_toNat]
  · simp only [List.cons_append, List.nil_append, utf8DecodeStep]
    rw [if_neg (by omega), if_neg (by omega), if_pos (by omega)]
    simp only [utf8Tail2]
    have he : (0xE0 + c.toNat / 4096 - 0xE0) * 4096 + (0x80 + c.toNat / 64 % 64 - 0x80) * 64 +
        (0x80 + c.toNat % 64 - 0x80) = c.toNat := by
      omega
    rw [he, Char.ofNat_toNat]
  · simp only [List.cons_append, List.nil_append, utf8DecodeStep]
    rw [if_neg (by omega), if_neg (by omega), if_neg (by omega)]
    simp only [utf8Tail3]
    have he : (0xF0 + c.toNat / 262144 - 0xF0) * 262144 +
        (0x80 + c.toNat / 4096 % 64 - 0x80) * 4096 +
        (0x80 + c.toNat / 64 % 64 - 0x80) * 64 + (0x80 + c.toNat % 64 - 0x80) = c.toNat := by
      omega
    rw [he, Char.ofNat_toNat]

theorem utf8DecodeAux_encodeList (cs : List Char) :
    ∀ fuel, ((cs.map utf8EncodeChar).flatten).length ≤ fuel →
      utf8DecodeAux fuel ((cs.map utf8EncodeChar).flatten) = some cs := by
  induction cs with
  | nil =>
    intro fuel _
    cases fuel <;> rfl
  | cons c cs ih =>
    intro fuel hfuel
    simp only [List.map_cons, List.flatten_cons] at hfuel ⊢
    obtain ⟨b, t, hbt⟩ : ∃ b t, utf8EncodeChar c = b :: t := by
      cases henc : utf8EncodeChar c with
      | nil => exact absurd henc (utf8EncodeChar_ne_nil c)
      | cons b t => exact ⟨b, t, rfl⟩
    rw [hbt]
    have hlen : (b :: t ++ (cs.map utf8EncodeChar).flatten).length ≤ fuel := by
      simpa [hbt] using hfuel
    cases fuel with
    | zero => simp at hlen
    | succ fuel =>
      show utf8DecodeAux (fuel + 1) (b :: (t ++ (cs.map utf8EncodeChar).flatten)) = _
      rw [utf8DecodeAux]
      have hstep := utf8DecodeStep_encode c ((cs.map utf8EncodeChar).flatten)
      rw [hbt] at hstep
      simp only [List.cons_append] at hstep
      rw [hstep]
      dsimp only
      rw [ih fuel (by simp at hlen ⊢; omega)]
      rfl

/-- UTF-8 round trip: decoding an encoded string gives the string back. -/
theorem textDecode_textEncode (s : String) : textDecode (textEncode s) = some s := by
  unfold textDecode textEncode utf8DecodeList
  rw [utf8DecodeAux_encodeList s.data _ le_rfl]
  cases s
  rfl

theorem textEncode_bytes (s : String) : isBytes (textEncode s) := by
  intro b hb
  unfold textEncode at hb
  rw [List.mem_flatten] at hb
  obtain ⟨l, hl, hbl⟩ := hb
  rw [List.mem_map] at hl
  obtain ⟨c, _, rfl⟩ := hl
  exact utf8EncodeChar_bytes c b hbl

theorem textEncode_injective {s t : String} (h : textEncode s = textEncode t) : s = t := by
  have hs := textDecode_textEncode s
  have ht := textDecode_textEncode t
  rw [h, ht] at hs
  exact (Option.some_injective _ hs).symm

theorem charIndexIn_lt {c : Char} {l : List Char} {i : Nat}
    (h : charIndexIn c l = some i) : i < l.length := by
  induction l generalizing i with
  | nil => simp [charIndexIn] at h
  | cons x xs ih =>
    unfold charIndexIn at h
    by_cases hx : x = c
    · rw [if_pos hx] at h
      cases h
      simp
    · rw [if_neg hx] at h
      cases hi : charIndexIn c xs with
      | none => rw [hi] at h; simp at h
      | some j =>
        rw [hi] at h
        cases h
        have := ih hi
        simp
        omega

theorem charIndexIn_getD {c : Char} {l : List Char} {i : Nat} (d : Char)
    (h : charIndexIn c l = some i) : l.getD i d = c := by
  induction l generalizing i with
  | nil => simp [charIndexIn] at h
  | cons x xs ih =>
    unfold charIndexIn at h
    by_cases hx : x = c
    · rw [if_pos hx] at h
      cases h
      simpa using hx
    · rw [if_neg hx] at h
      cases hi : charIndexIn c xs with
      | none => rw [hi] at h; simp at h
      | some j =>
        rw [hi] at h
        cases h
        simpa using ih hi

theorem b64ValOf_b64CharOf : ∀ n < 64, b64ValOf (b64CharOf n) = some n := by decide

theorem b64uValOf_b64uCharOf : ∀ n < 64, b64uValOf (b64uCharOf n) = some n := by decide

theorem b64uCharOf_b64uValOf {c : Char} {a : Nat} (h : b64uValOf c = some a) :
    b64uCharOf a = c := by
  unfold b64uValOf at h
  unfold b64uCharOf
  exact charIndexIn_getD 'A' h

theorem b64ValOf_lt {c : Char} {a : Nat} (h : b64ValOf c = some a) : a < 64 :=
  charIndexIn_lt h

theorem b64uValOf_lt {c : Char} {a : Nat} (h : b64uValOf c = some a) : a < 64 :=
  charIndexIn_lt h

theorem b64Alphabet_length : b64Alphabet.length = 64 := by decide

theorem b64CharOf_mem (n : Nat) : b64CharOf n ∈ b64Alphabet := by
  by_cases h : n < 64
  · rw [b64CharOf, List.getD_eq_getElem _ _ (by rw [b64Alphabet_length]; exact h)]
    exact List.getElem_mem _
  · rw [b64CharOf, List.getD_eq_default _ _ (by rw [b64Alphabet_length]; omega)]
    decide

theorem b64CharOf_ne_pad (n : Nat) : b64CharOf n ≠ '=' := by
  intro h
  have hm := b64CharOf_mem n
  rw [h] at hm
  revert hm
  decide

theorem b64CharOf_ne_colon (n : Nat) : b64CharOf n ≠ ':' := by
  intro h
  have hm := b64CharOf_mem n
  rw [h] at hm
  revert hm
  decide

theorem b64EncodeList_ne_nil (b : Nat) (bs : List Nat) : b64EncodeList (b :: bs) ≠ [] := by
  cases bs with
  | nil => simp [b64EncodeList]
  | cons b2 bs2 => cases bs2 <;> simp [b64EncodeList]

theorem b64DecodeList_encodeList (bs : List Nat) (h : isBytes bs) :
    b64DecodeList (b64EncodeList bs) = some bs := by
  induction bs using b64EncodeList.induct with
  | case1 => rfl
  | case2 b1 =>
    have hb1 : b1 < 256 := h b1 (by simp)
    simp only [b64EncodeList]
    show b64DecodeQuad _ _ _ _ = _
    unfold b64DecodeQuad
    rw [if_pos rfl, if_pos rfl]
    rw [b64ValOf_b64CharOf _ (by omega), b64ValOf_b64CharOf _ (by omega)]
    simp only [Option.some_bind]
    rw [if_pos (by omega)]
    simp only [Option.some.injEq, List.cons.injEq, and_true]
    omega
  | case3 b1 b2 =>
    have hb1 : b1 < 256 := h b1 (by simp)
    have hb2 : b2 < 256 := h b2 (by simp)
    simp only [b64EncodeList]
    show b64DecodeQuad _ _ _ _ = _
    unfold b64DecodeQuad
    rw [if_neg (b64CharOf_ne_pad _), if_pos rfl]
    rw [b64ValOf_b64CharOf _ (by omega), b64ValOf_b64CharOf _ (by omega),
      b64ValOf_b64CharOf _ (by omega)]
    simp only [Option.some_bind]
    rw [if_pos (by omega)]
    simp only [Option.some.injEq, List.cons.injEq, and_true]
    omega
  | case4 b1 b2 b3 rest ih =>
    have hb1 : b1 < 256 := h b1 (by simp)
    have hb2 : b2 < 256 := h b2 (by simp)
    have hb3 : b3 < 256 := h b3 (by simp)
    have hrest : isBytes rest := fun b hb => h b (by simp [hb])
    simp only [b64EncodeList]
    cases hr : rest with
    | nil =>
      simp only [b64EncodeList]
      show b64DecodeQuad _ _ _ _ = _
      unfold b64DecodeQuad
      rw [if_neg (b64CharOf_ne_pad _), if_neg (b64CharOf_ne_pad _)]
      rw [b64ValOf_b64CharOf _ (by omega), b64ValOf_b64CharOf _ (by omega),
        b64ValOf_b64CharOf _ (by omega), b64ValOf_b64CharOf _ (by omega)]
      simp only [Option.some_bind]
      simp only [Option.some.injEq, List.cons.injEq, and_true]
      omega
    | cons r rs =>
      rw [← hr]
      have hne := b64EncodeList_ne_nil r rs
      rw [← hr] at hne
      obtain ⟨e1, erest, he⟩ : ∃ e1 erest, b64EncodeList rest = e1 :: erest := by
        cases hh : b64EncodeList rest with
        | nil => exact absurd hh hne
        | cons e1 erest => exact ⟨e1, erest, rfl⟩
      rw [he]
      show (b64ValOf _).bind _ = _
      rw [b64ValOf_b64CharOf _ (by omega), b64ValOf_b64CharOf _ (by omega),
        b64ValOf_b64CharOf _ (by omega), b64ValOf_b64CharOf _ (by omega)]
      simp only [Option.some_bind]
      rw [← he, ih hrest]
      simp only [Option.map_some', Option.some.injEq, List.cons.injEq, and_true]
      omega

/-- ByteCodec round trip (§4.1): decoding an encoded byte list gives it back. -/
theorem base64_roundtrip (bs : List Nat) (h : isBytes bs) :
    base64ToArrayBuffer (arrayBufferToBase64 bs) = some bs := by
  unfold base64ToArrayBuffer arrayBufferToBase64
  exact b64DecodeList_encodeList bs h

theorem b64EncodeList_injective {x y : List Nat} (hx : isBytes x) (hy : isBytes y)
    (h : b64EncodeList x = b64EncodeList y) : x = y := by
  have h1 := b64DecodeList_encodeList x hx
  have h2 := b64DecodeList_encodeList y hy
  rw [h, h2] at h1
  exact (Option.some_injective _ h1).symm

theorem arrayBufferToBase64_ne_empty (b : Nat) (bs : List Nat) :
    arrayBufferToBase64 (b :: bs) ≠ "" := by
  unfold arrayBufferToBase64
  intro hcontra
  apply b64EncodeList_ne_nil b bs
  have hd := congrArg String.data hcontra
  simpa using hd

theorem b64EncodeList_no_colon (bs : List Nat) : ':' ∉ b64EncodeList bs := by
  induction bs using b64EncodeList.induct with
  | case1 => simp [b64EncodeList]
  | case2 b1 =>
    simp only [b64EncodeList, List.mem_cons, List.not_mem_nil, or_false]
    rintro (h | h | h | h) <;> first
      | exact b64CharOf_ne_colon _ h.symm
      | simp at h
  | case3 b1 b2 =>
    simp only [b64EncodeList, List.mem_cons, List.not_mem_nil, or_false]
    rintro (h | h | h | h) <;> first
      | exact b64CharOf_ne_colon _ h.symm
      | simp at h
  | case4 b1 b2 b3 rest ih =>
    simp only [b64EncodeList, List.mem_cons]
    rintro (h | h | h | h | h) <;> first
      | exact b64CharOf_ne_colon _ h.symm
      | exact ih h

theorem b64uAlphabet_length : b64uAlphabet.length = 64 := by decide

theorem b64uCharOf_mem (n : Nat) : b64uCharOf n ∈ b64uAlphabet := by
  by_cases h : n < 64
  · rw [b64uCharOf, List.getD_eq_getElem _ _ (by rw [b64uAlphabet_length]; exact h)]
    exact List.getElem_mem _
  · rw [b64uCharOf, List.getD_eq_default _ _ (by rw [b64uAlphabet_length]; omega)]
    decide

theorem b64uCharOf_ne_colon (n : Nat) : b64uCharOf n ≠ ':' := by
  intro h
  have hm := b64uCharOf_mem n
  rw [h] at hm
  revert hm
  decide

theorem b64uEncodeList_no_colon (bs : List Nat) : ':' ∉ b64uEncodeList bs := by
  induction bs using b64uEncodeList.induct with
  | case1 => simp [b64uEncodeList]
  | case2 b1 =>
    simp only [b64uEncodeList, List.mem_cons, List.not_mem_nil, or_false]
    rintro (h | h) <;> exact b64uCharOf_ne_colon _ h.symm
  | case3 b1 b2 =>
    simp only [b64uEncodeList, List.mem_cons, List.not_mem_nil, or_false]
    rintro (h | h | h) <;> exact b64uCharOf_ne_colon _ h.symm
  | case4 b1 b2 b3 rest ih =>
    simp only [b64uEncodeList, List.mem_cons]
    rintro (h | h | h | h | h) <;> first
      | exact b64uCharOf_ne_colon _ h.symm
      | exact ih h

theorem b64uDecodeList_bytes {l : List Char} {bs : List Nat}
    (h : b64uDecodeList l = some bs) : isBytes bs := by
  induction l using b64uDecodeList.induct generalizing bs with
  | case1 =>
    cases h
    intro b hb
    simp at hb
  | case2 c1 c2 =>
    rw [b64uDecodeList, Option.bind_eq_some] at h
    obtain ⟨a1, hv1, h⟩ := h
    rw [Option.bind_eq_some] at h
    obtain ⟨a2, hv2, h⟩ := h
    have ha1 := b64uValOf_lt hv1
    have ha2 := b64uValOf_lt hv2
    split_ifs at h
    cases h
    intro b hb
    simp only [List.mem_cons, List.not_mem_nil, or_false] at hb
    omega
  | case3 c1 c2 c3 =>
    rw [b64uDecodeList, Option.bind_eq_some] at h
    obtain ⟨a1, hv1, h⟩ := h
    rw [Option.bind_eq_some] at h
    obtain ⟨a2, hv2, h⟩ := h
    rw [Option.bind_eq_some] at h
    obtain ⟨a3, hv3, h⟩ := h
    have ha1 := b64uValOf_lt hv1
    have ha2 := b64uValOf_lt hv2
    have ha3 := b64uValOf_lt hv3
    split_ifs at h
    cases h
    intro b hb
    simp only [List.mem_cons, List.not_mem_nil, or_false] at hb
    rcases hb with hb | hb <;> omega
  | case4 c1 c2 c3 c4 rest ih =>
    rw [b64uDecodeList, Option.bind_eq_some] at h
    obtain ⟨a1, hv1, h⟩ := h
    rw [Option.bind_eq_some] at h
    obtain ⟨a2, hv2, h⟩ := h
    rw [Option.bind_eq_some] at h
    obtain ⟨a3, hv3, h⟩ := h
    rw [Option.bind_eq_some] at h
    obtain ⟨a4, hv4, h⟩ := h
    rw [Option.map_eq_some'] at h
    obtain ⟨bs', hrest, rfl⟩ := h
    have ha1 := b64uValOf_lt hv1
    have ha2 := b64uValOf_lt hv2
    have ha3 := b64uValOf_lt hv3
    have ha4 := b64uValOf_lt hv4
    have hbs' := ih hrest
    intro b hb
    simp only [List.mem_cons] at hb
    rcases hb with hb | hb | hb | hb
    · omega
    · omega
    · omega
    · exact hbs' b hb
  | case5 c1 => simp [b64uDecodeList] at h

theorem b64uEncodeList_leftInv {l : List Char} {bs : List Nat}
    (h : b64uDecodeList l = some bs) : b64uEncodeList bs = l := by
  induction l using b64uDecodeList.induct generalizing bs with
  | case1 =>
    cases h
    rfl
  | case2 c1 c2 =>
    rw [b64uDecodeList, Option.bind_eq_some] at h
    obtain ⟨a1, hv1, h⟩ := h
    rw [Option.bind_eq_some] at h
    obtain ⟨a2, hv2, h⟩ := h
    have ha1 := b64uValOf_lt hv1
    have ha2 := b64uValOf_lt hv2
    split_ifs at h with hp
    cases h
    show b64uEncodeList [a1 * 4 + a2 / 16] = _
    rw [b64uEncodeList]
    rw [show (a1 * 4 + a2 / 16) / 4 = a1 by omega,
      show (a1 * 4 + a2 / 16) % 4 * 16 = a2 by omega]
    rw [b64uCharOf_b64uValOf hv1, b64uCharOf_b64uValOf hv2]
  | case3 c1 c2 c3 =>
    rw [b64uDecodeList, Option.bind_eq_some] at h
    obtain ⟨a1, hv1, h⟩ := h
    rw [Option.bind_eq_some] at h
    obtain ⟨a2, hv2, h⟩ := h
    rw [Option.bind_eq_some] at h
    obtain ⟨a3, hv3, h⟩ := h
    have ha1 := b64uValOf_lt hv1
    have ha2 := b64uValOf_lt hv2
    have ha3 := b64uValOf_lt hv3
    split_ifs at h with hp
    cases h
    show b64uEncodeList [a1 * 4 + a2 / 16, a2 % 16 * 16 + a3 / 4] = _
    rw [b64uEncodeList]
    rw [show (a1 * 4 + a2 / 16) / 4 = a1 by omega,
      show (a1 * 4 + a2 / 16) % 4 * 16 + (a2 % 16 * 16 + a3 / 4) / 16 = a2 by omega,
      show (a2 % 16 * 16 + a3 / 4) % 16 * 4 = a3 by omega]
    rw [b64uCharOf_b64uValOf hv1, b64uCharOf_b64uValOf hv2, b64uCharOf_b64uValOf hv3]
  | case4 c1 c2 c3 c4 rest ih =>
    rw [b64uDecodeList, Option.bind_eq_some] at h
    obtain ⟨a1, hv1, h⟩ := h
    rw [Option.bind_eq_some] at h
    obtain ⟨a2, hv2, h⟩ := h
    rw [Option.bind_eq_some] at h
    obtain ⟨a3, hv3, h⟩ := h
    rw [Option.bind_eq_some] at h
    obtain ⟨a4, hv4, h⟩ := h
    rw [Option.map_eq_some'] at h
    obtain ⟨bs', hrest, rfl⟩ := h
    have ha1 := b64uValOf_lt hv1
    have ha2 := b64uValOf_lt hv2
    have ha3 := b64uValOf_lt hv3
    have ha4 := b64uValOf_lt hv4
    show b64uEncodeList ((a1 * 4 + a2 / 16) :: (a2 % 16 * 16 + a3 / 4) ::
      (a3 % 4 * 64 + a4) :: bs') = _
    rw [b64uEncodeList]
    rw [show (a1 * 4 + a2 / 16) / 4 = a1 by omega,
      show (a1 * 4 + a2 / 16) % 4 * 16 + (a2 % 16 * 16 + a3 / 4) / 16 = a2 by omega,
      show (a2 % 16 * 16 + a3 / 4) % 16 * 4 + (a3 % 4 * 64 + a4) / 64 = a3 by omega,
      show (a3 % 4 * 64 + a4) % 64 = a4 by omega]
    rw [b64uCharOf_b64uValOf hv1, b64uCharOf_b64uValOf hv2, b64uCharOf_b64uValOf hv3,
      b64uCharOf_b64uValOf hv4, ih hrest]
  | case5 c1 => simp [b64uDecodeList] at h

theorem string_data_inj {s t : String} (h : s.data = t.data) : s = t := by
  cases s
  cases t
  exact congrArg String.mk h

theorem b64uDecode_injective {s t : String} {bs : List Nat}
    (hs : b64uDecodeList s.data = some bs) (ht : b64uDecodeList t.data = some bs) : s = t := by
  apply string_data_inj
  rw [← b64uEncodeList_leftInv hs, ← b64uEncodeList_leftInv ht]

theorem subtleAesGcmDecrypt_encrypt (iv keyBytes m : List Nat) :
    subtleAesGcmDecrypt iv keyBytes (subtleAesGcmEncrypt iv keyBytes m) = some m := by
  unfold subtleAesGcmDecrypt subtleAesGcmEncrypt
  have hlen : (m ++ (keyBytes ++ iv)).length - (keyBytes ++ iv).length = m.length := by
    simp
  rw [hlen, if_pos ⟨(List.drop_left m (keyBytes ++ iv)).symm, by simp⟩, List.take_left]

theorem subtleAesGcmDecrypt_wrong_key {kb kb' : List Nat} (iv m : List Nat)
    (hlen : kb.length = kb'.length) (hne : kb ≠ kb') :
    subtleAesGcmDecrypt iv kb' (subtleAesGcmEncrypt iv kb m) = none := by
  unfold subtleAesGcmDecrypt subtleAesGcmEncrypt
  rw [if_neg]
  rintro ⟨heq, -⟩
  have hl : (m ++ (kb ++ iv)).length - (kb' ++ iv).length = m.length := by
    simp [hlen]
  rw [hl, List.drop_left] at heq
  exact hne ((List.append_inj heq.symm (by simp [hlen])).1)

theorem logInKeyToCryptoKey_spec {k : String} {kb : List Nat}
    (h : logInKeyToCryptoKey k = some kb) :
    b64uDecodeList k.data = some kb ∧ kb.length = 16 ∧ isBytes kb := by
  unfold logInKeyToCryptoKey at h
  rw [Option.bind_eq_some] at h
  obtain ⟨kb', hdec, h⟩ := h
  split_ifs at h with hlen
  cases h
  exact ⟨hdec, hlen, b64uDecodeList_bytes hdec⟩

theorem ciphertext_bytes {k : String} {kb : List Nat} (v : String)
    (hk : logInKeyToCryptoKey k = some kb) :
    isBytes (subtleAesGcmEncrypt zeroNonce kb (textEncode v)) := by
  obtain ⟨-, -, hkb⟩ := logInKeyToCryptoKey_spec hk
  intro b hb
  unfold subtleAesGcmEncrypt at hb
  simp only [List.mem_append] at hb
  rcases hb with hb | hb | hb
  · exact textEncode_bytes v b hb
  · exact hkb b hb
  · rw [zeroNonce, List.mem_replicate] at hb
    omega

/-- Decrypting an encryption under the same login key recovers the value. -/
theorem logInKeyDecrypt_logInKeyEncrypt {k : String} {kb : List Nat} (v : String)
    (hk : logInKeyToCryptoKey k = some kb) {ct : String}
    (henc : logInKeyEncrypt k v = some ct) : logInKeyDecrypt k ct = some v := by
  unfold logInKeyEncrypt at henc
  rw [hk, Option.map_some'] at henc
  cases henc
  unfold logInKeyDecrypt
  rw [hk, Option.some_bind, base64_roundtrip _ (ciphertext_bytes v hk), Option.some_bind,
    subtleAesGcmDecrypt_encrypt, Option.some_bind, textDecode_textEncode]

/-- An AES-GCM ciphertext always contains at least the authentication trailer,
so an encryption under an imported key is never the empty string. -/
theorem logInKeyEncrypt_ne_empty {k : String} {kb : List Nat} (v : String)
    (hk : logInKeyToCryptoKey k = some kb) : logInKeyEncrypt k v ≠ some "" := by
  unfold logInKeyEncrypt
  rw [hk, Option.map_some']
  intro hcontra
  have hct := Option.some_injective _ hcontra
  obtain ⟨-, hlen, -⟩ := logInKeyToCryptoKey_spec hk
  have : ∃ b bs, subtleAesGcmEncrypt zeroNonce kb (textEncode v) = b :: bs := by
    cases hsh : subtleAesGcmEncrypt zeroNonce kb (textEncode v) with
    | nil =>
      have := congrArg List.length hsh
      simp [subtleAesGcmEncrypt, zeroNonce] at this
    | cons b bs => exact ⟨b, bs, rfl⟩
  obtain ⟨b, bs, hsh⟩ := this
  rw [hsh] at hct
  exact arrayBufferToBase64_ne_empty b bs hct

/-- With the key fixed, encryptions of distinct values are distinct. -/
theorem logInKeyEncrypt_value_injective {k : String} {kb : List Nat} {u u' : String}
    (hk : logInKeyToCryptoKey k = some kb) (hne : u ≠ u') :
    logInKeyEncrypt k u ≠ logInKeyEncrypt k u' := by
  unfold logInKeyEncrypt
  rw [hk, Option.map_some', Option.map_some']
  intro hcontra
  have heq := Option.some_injective _ hcontra
  unfold arrayBufferToBase64 at heq
  have hdat := congrArg String.data heq
  simp only [String.data] at hdat
  have hbytes := b64EncodeList_injective (ciphertext_bytes u hk) (ciphertext_bytes u' hk) hdat
  unfold subtleAesGcmEncrypt at hbytes
  have hlen : (textEncode u).length = (textEncode u').length := by
    have := congrArg List.length hbytes
    simp at this
    omega
  have := (List.append_inj hbytes hlen).1
  exact hne (textEncode_injective this)

/-- With the value fixed, encryptions under distinct imported keys are distinct. -/
theorem logInKeyEncrypt_key_injective {k k' : String} {kb kb' : List Nat} (u : String)
    (hk : logInKeyToCryptoKey k = some kb) (hk' : logInKeyToCryptoKey k' = some kb')
    (hne : k ≠ k') : logInKeyEncrypt k u ≠ logInKeyEncrypt k' u := by
  obtain ⟨hdec, hlen, -⟩ := logInKeyToCryptoKey_spec hk
  obtain ⟨hdec', hlen', -⟩ := logInKeyToCryptoKey_spec hk'
  have hkbne : kb ≠ kb' := by
    rintro rfl
    exact hne (b64uDecode_injective hdec hdec')
  unfold logInKeyEncrypt
  rw [hk, hk', Option.map_some', Option.map_some']
  intro hcontra
  have heq := Option.some_injective _ hcontra
  unfold arrayBufferToBase64 at heq
  have hdat := congrArg String.data heq
  simp only [String.data] at hdat
  have hbytes := b64EncodeList_injective (ciphertext_bytes u hk) (ciphertext_bytes u hk') hdat
  unfold subtleAesGcmEncrypt at hbytes
  have htrailer := List.append_cancel_left hbytes
  exact hkbne (List.append_inj htrailer (by rw [hlen, hlen'])).1

theorem decompressBase64_compressToBase64 (s : String) :
    decompressBase64 (compressToBase64 s) = some s := by
  unfold decompressBase64 compressToBase64
  rw [base64_roundtrip _ (textEncode_bytes s), Option.some_bind, textDecode_textEncode]

theorem digitsLEAux_lt : ∀ fuel n, ∀ d ∈ digitsLEAux fuel n, d < 10 := by
  intro fuel
  induction fuel with
  | zero =>
    intro n d hd
    simp only [digitsLEAux, List.mem_singleton] at hd
    omega
  | succ fuel ih =>
    intro n d hd
    unfold digitsLEAux at hd
    split_ifs at hd with h
    · simp only [List.mem_singleton] at hd
      omega
    · simp only [List.mem_cons] at hd
      rcases hd with hd | hd
      · omega
      · exact ih _ d hd

theorem digitsLE_lt (n : Nat) : ∀ d ∈ digitsLE n, d < 10 := digitsLEAux_lt n n

theorem digitChar_toNat {d : Nat} (hd : d < 10) : (digitChar d).toNat = 48 + d := by
  interval_cases d <;> decide

theorem digitChar_isDigit {d : Nat} (hd : d < 10) : isDigitChar (digitChar d) = true := by
  interval_cases d <;> decide

theorem parseNatAux_digitRun (ds : List Nat) (hds : ∀ d ∈ ds, d < 10) (rest : List Char)
    (hrest : headNotDigit rest) (acc : Nat) :
    parseNatAux (ds.map digitChar ++ rest) acc =
      (ds.foldl (fun a d => a * 10 + d) acc, rest) := by
  induction ds generalizing acc with
  | nil =>
    simp only [List.map_nil, List.nil_append, List.foldl_nil]
    cases rest with
    | nil => rfl
    | cons c r =>
      unfold headNotDigit at hrest
      unfold parseNatAux
      rw [hrest]
      simp
  | cons d ds ih =>
    have hd : d < 10 := hds d (by simp)
    simp only [List.map_cons, List.cons_append, List.foldl_cons]
    unfold parseNatAux
    rw [digitChar_isDigit hd]
    simp only [if_true, digitChar_toNat hd]
    rw [show 48 + d - 48 = d by omega]
    exact ih (fun x hx => hds x (by simp [hx])) _

theorem foldl_digitsLEAux : ∀ fuel n, n ≤ fuel → ∀ acc : Nat,
    (digitsLEAux fuel n).reverse.foldl (fun a d => a * 10 + d) acc =
      acc * 10 ^ (digitsLEAux fuel n).length + n := by
  intro fuel
  induction fuel with
  | zero =>
    intro n hn acc
    have hz : n = 0 := by omega
    subst hz
    simp [digitsLEAux]
  | succ fuel ih =>
    intro n hn acc
    unfold digitsLEAux
    split_ifs with h
    · simp only [List.reverse_singleton, List.foldl_cons, List.foldl_nil, List.length_singleton,
        pow_one]
    · simp only [List.reverse_cons, List.foldl_append, List.foldl_cons, List.foldl_nil,
        List.length_cons]
      rw [ih (n / 10) (by omega) acc]
      have h1 : (acc * 10 ^ (digitsLEAux fuel (n / 10)).length + n / 10) * 10 + n % 10 =
          acc * 10 ^ (digitsLEAux fuel (n / 10)).length * 10 + (n / 10 * 10 + n % 10) := by
        ring
      have h2 : n / 10 * 10 + n % 10 = n := by omega
      rw [h1, h2, pow_succ, ← mul_assoc]

theorem foldl_digitsLE (n : Nat) : ∀ acc : Nat,
    (digitsLE n).reverse.foldl (fun a d => a * 10 + d) acc =
      acc * 10 ^ (digitsLE n).length + n :=
  foldl_digitsLEAux n n le_rfl

theorem parseNatAux_decimal (n : Nat) (rest : List Char) (hrest : headNotDigit rest) :
    parseNatAux (decimalChars n ++ rest) 0 = (n, rest) := by
  unfold decimalChars
  rw [parseNatAux_digitRun _ (fun d hd => digitsLE_lt n d (by simpa using hd)) rest hrest 0,
    foldl_digitsLE]
  simp

theorem parseNatField_serNat (n : Nat) (rest : List Char) :
    parseNatField (serNat n ++ rest) = some (n, rest) := by
  unfold parseNatField serNat
  rw [List.append_assoc, List.singleton_append, parseNatAux_decimal n _ (by trivial)]
  rfl

theorem parseStr_serStr (s : String) (rest : List Char) :
    parseStr (serStr s ++ rest) = some (s, rest) := by
  unfold parseStr serStr
  rw [List.append_assoc, List.cons_append, parseNatAux_decimal _ _ (by trivial)]
  show (if s.data.length ≤ (s.data ++ rest).length then _ else _) = _
  rw [if_pos (by simp), List.take_left, List.drop_left]

theorem parseCount_serialized {α : Type} (f : α → List Char)
    (p : List Char → Option (α × List Char))
    (hp : ∀ a rest, p (f a ++ rest) = some (a, rest)) (l : List α) (rest : List Char) :
    parseCount p l.length ((l.map f).flatten ++ rest) = some (l, rest) := by
  induction l generalizing rest with
  | nil => rfl
  | cons a l ih =>
    simp only [List.map_cons, List.flatten_cons, List.length_cons]
    rw [List.append_assoc]
    unfold parseCount
    rw [hp a _, Option.some_bind, ih rest]
    rfl

theorem parseListOf_serListOf {α : Type} (f : α → List Char)
    (p : List Char → Option (α × List Char))
    (hp : ∀ a rest, p (f a ++ rest) = some (a, rest)) (l : List α) (rest : List Char) :
    parseListOf p (serListOf f l ++ rest) = some (l, rest) := by
  unfold parseListOf serListOf
  rw [List.append_assoc, List.cons_append, parseNatAux_decimal _ _ (by trivial)]
  exact parseCount_serialized f p hp l rest

theorem parseLike_serLike (lk : Like) (rest : List Char) :
    parseLike (serLike lk ++ rest) = some (lk, rest) := by
  unfold parseLike serLike
  rw [List.append_assoc, parseStr_serStr, Option.some_bind, parseNatField_serNat]
  rfl

theorem parsePost_serPost (p : Post) (rest : List Char) :
    parsePost (serPost p ++ rest) = some (p, rest) := by
  unfold parsePost serPost
  rw [List.append_assoc, List.append_assoc, List.append_assoc, List.append_assoc,
    List.append_assoc]
  rw [parseStr_serStr, Option.some_bind, parseStr_serStr, Option.some_bind,
    parseNatField_serNat, Option.some_bind, parseStr_serStr, Option.some_bind,
    parseListOf_serListOf serStr parseStr parseStr_serStr, Option.some_bind,
    parseListOf_serListOf serLike parseLike parseLike_serLike]
  rfl

theorem parseUser_serUser (u : User) (rest : List Char) :
    parseUser (serUser u ++ rest) = some (u, rest) := by
  unfold parseUser serUser
  rw [List.append_assoc, List.append_assoc]
  rw [parseStr_serStr, Option.some_bind, parseNatField_serNat, Option.some_bind,
    parseStr_serStr]
  rfl

theorem parseAppState_serAppState (a : AppState) (rest : List Char) :
    parseAppState (serAppState a ++ rest) = some (a, rest) := by
  unfold parseAppState serAppState
  rw [List.append_assoc, List.append_assoc]
  rw [parseListOf_serListOf serUser parseUser parseUser_serUser, Option.some_bind,
    parseListOf_serListOf serStr parseStr parseStr_serStr, Option.some_bind,
    parseListOf_serListOf serPost parsePost parsePost_serPost]
  rfl

/-- Serialization round trip: parsing a serialized snapshot recovers it. -/
theorem jsonParse_jsonStringify (a : AppState) : jsonParse (jsonStringify a) = some a := by
  unfold jsonParse jsonStringify
  have h := parseAppState_serAppState a []
  rw [List.append_nil] at h
  rw [show (String.mk (serAppState a)).data = serAppState a from rfl, h]

theorem splitOnColon_ne_nil (l : List Char) : splitOnColon l ≠ [] := by
  cases l with
  | nil => simp [splitOnColon]
  | cons c rest =>
    rw [splitOnColon]
    split_ifs
    · simp
    · cases splitOnColon rest <;> simp [consHead]

theorem splitOnColon_no_colon {l : List Char} (h : ':' ∉ l) : splitOnColon l = [l] := by
  induction l with
  | nil => rfl
  | cons c rest ih =>
    rw [splitOnColon]
    rw [if_neg (by simp at h; exact fun hc => h.1 hc.symm)]
    rw [ih (by simp at h; exact h.2)]
    rfl

theorem splitOnColon_first {a : List Char} (b : List Char) (ha : ':' ∉ a) :
    splitOnColon (a ++ ':' :: b) = a :: splitOnColon b := by
  induction a with
  | nil =>
    rw [List.nil_append, splitOnColon, if_pos rfl]
  | cons c arest ih =>
    rw [List.cons_append, splitOnColon]
    rw [if_neg (by simp at ha; exact fun hc => ha.1 hc.symm)]
    rw [ih (by simp at ha; exact ha.2)]
    rfl

theorem mem_decomp_first {l : List Char} (h : ':' ∈ l) :
    ∃ a b, l = a ++ ':' :: b ∧ ':' ∉ a := by
  induction l with
  | nil => simp at h
  | cons c rest ih =>
    by_cases hc : c = ':'
    · exact ⟨[], rest, by rw [hc]; rfl, by simp⟩
    · have hr : ':' ∈ rest := by
        rcases List.mem_cons.mp h with h1 | h1
        · exact absurd h1.symm hc
        · exact h1
      obtain ⟨a, b, hab, hna⟩ := ih hr
      exact ⟨c :: a, b, by rw [hab]; rfl, by simp [hna]; exact fun hx => hc hx.symm⟩

theorem find?_eq_some_decomp {α : Type} {p : α → Bool} {l : List α} {a : α}
    (h : l.find? p = some a) :
    ∃ l1 l2, l = l1 ++ a :: l2 ∧ p a = true ∧ ∀ x ∈ l1, p x = false := by
  induction l with
  | nil => simp at h
  | cons x xs ih =>
    by_cases hp : p x
    · rw [List.find?_cons_of_pos _ hp] at h
      cases h
      exact ⟨[], xs, rfl, hp, by simp⟩
    · rw [List.find?_cons_of_neg _ (by simpa using hp)] at h
      obtain ⟨l1, l2, rfl, hpa, hl1⟩ := ih h
      refine ⟨x :: l1, l2, rfl, hpa, ?_⟩
      intro y hy
      rcases List.mem_cons.mp hy with rfl | hy
      · simpa using hp
      · exact hl1 y hy

theorem updateFirstPost_decomp (f : Post → Post) (pid : String) (l1 : List Post) (p : Post)
    (l2 : List Post) (h1 : ∀ q ∈ l1, q.postId ≠ pid) (hp : p.postId = pid) :
    updateFirstPost f pid (l1 ++ p :: l2) = l1 ++ f p :: l2 := by
  induction l1 with
  | nil =>
    simp only [List.nil_append]
    unfold updateFirstPost
    rw [if_pos (by simp [hp])]
  | cons q l1 ih =>
    simp only [List.cons_append]
    unfold updateFirstPost
    rw [if_neg (by simp only [beq_iff_eq]; exact h1 q (by simp))]
    rw [ih (fun x hx => h1 x (by simp [hx]))]

theorem togglePostLikeOnPost_postId (u : String) (t : Nat) (p : Post) :
    (togglePostLikeOnPost u t p).postId = p.postId := by
  unfold togglePostLikeOnPost
  split_ifs <;> rfl

theorem togglePostLike_decomp (u : User) (t : Nat) (s : AppState) (pid : String)
    (l1 l2 : List Post) (p : Post) (hdecomp : s.allPosts = l1 ++ p :: l2)
    (hpid : p.postId = pid) (hl1 : ∀ q ∈ l1, q.postId ≠ pid) :
    (togglePostLike u t s pid).allPosts =
      l1 ++ togglePostLikeOnPost u.username t p :: l2 := by
  show updateFirstPost (togglePostLikeOnPost u.username t) pid s.allPosts = _
  rw [hdecomp]
  exact updateFirstPost_decomp _ _ _ _ _ hl1 hpid

theorem togglePostLikeOnPost_nodup (u : String) (t : Nat) (p : Post)
    (h : (likeNamesOf p).Nodup) : (likeNamesOf (togglePostLikeOnPost u t p)).Nodup := by
  unfold togglePostLikeOnPost likeNamesOf
  split_ifs with hfind
  · exact h.sublist (List.Sublist.map _ (List.filter_sublist _))
  · simp only [List.map_append, List.map_cons, List.map_nil]
    rw [List.nodup_append]
    refine ⟨h, by simp, ?_⟩
    intro name hname hmem
    simp only [List.mem_singleton] at hmem
    subst hmem
    rw [List.mem_map] at hname
    obtain ⟨o, ho, hou⟩ := hname
    rw [Option.not_isSome_iff_eq_none, List.find?_eq_none] at hfind
    exact hfind o ho (by rw [hou]; simp)

theorem togglePostLikeOnPost_twice_names (u : String) (t1 t2 : Nat) (p : Post) :
    ∀ name, name ∈ likeNamesOf (togglePostLikeOnPost u t2 (togglePostLikeOnPost u t1 p)) ↔
      name ∈ likeNamesOf p := by
  intro name
  unfold togglePostLikeOnPost likeNamesOf
  by_cases hfind : (p.likes.find? fun o => u == o.username).isSome
  · rw [if_pos hfind]
    have hfind2 : ((p.likes.filter fun o => !(u == o.username)).find?
        (fun o => u == o.username)).isSome = false := by
      rw [Bool.eq_false_iff, Ne, Option.isSome_iff_exists]
      rintro ⟨o, ho⟩
      have hmem := List.find?_some ho
      have hin := List.mem_filter.mp (List.mem_of_find?_eq_some ho)
      rw [hmem] at hin
      simp at hin
    simp only [hfind2, Bool.false_eq_true, if_false]
    simp only [List.map_append, List.map_cons, List.map_nil, List.mem_append,
      List.mem_singleton, List.mem_map]
    constructor
    · rintro (⟨o, ho, rfl⟩ | rfl)
      · exact ⟨o, (List.mem_filter.mp ho).1, rfl⟩
      · rw [Option.isSome_iff_exists] at hfind
        obtain ⟨o, ho⟩ := hfind
        have := List.find?_some ho
        rw [beq_iff_eq] at this
        exact ⟨o, List.mem_of_find?_eq_some ho, this.symm⟩
    · rintro ⟨o, ho, rfl⟩
      by_cases hou : u = o.username
      · exact Or.inr hou.symm
      · refine Or.inl ⟨o, List.mem_filter.mpr ⟨ho, ?_⟩, rfl⟩
        simp [hou]
  · rw [if_neg hfind]
    have hfind2 : ((p.likes ++ [({ username := u, likedAt := t1 } : Like)]).find?
        (fun o => u == o.username)).isSome := by
      rw [List.find?_isSome]
      refine ⟨({ username := u, likedAt := t1 } : Like), ?_, ?_⟩ <;> simp
    rw [if_pos hfind2]
    rw [Option.not_isSome_iff_eq_none, List.find?_eq_none] at hfind
    have hkeep : ∀ o ∈ p.likes, (!(u == o.username)) = true := by
      intro o ho
      have h1 : (u == o.username) = false := by simpa using hfind o ho
      rw [h1]
      rfl
    rw [List.filter_append, List.filter_eq_self.mpr hkeep]
    simp

theorem togglePostLikeOnPost_other_users (u : String) (t : Nat) (p : Post) (o : Like)
    (ho : o.username ≠ u) :
    o ∈ (togglePostLikeOnPost u t p).likes ↔ o ∈ p.likes := by
  unfold togglePostLikeOnPost
  split_ifs with hfind
  · simp only
    rw [List.mem_filter]
    constructor
    · exact fun h => h.1
    · intro h
      refine ⟨h, ?_⟩
      simp only [Bool.not_eq_true']
      rw [beq_eq_false_iff_ne]
      exact fun he => ho he.symm
  · simp only [List.mem_append, List.mem_singleton]
    constructor
    · rintro (h | rfl)
      · exact h
      · simp at ho
    · exact Or.inl

theorem generatePostIdAux_fresh (stream : Nat → List Nat) (s : AppState) :
    ∀ fuel idx id, generatePostIdAux stream s idx fuel = some id →
      ∀ p ∈ s.allPosts, p.postId ≠ id := by
  intro fuel
  induction fuel with
  | zero => intro idx id h; simp [generatePostIdAux] at h
  | succ fuel ih =>
    intro idx id h
    unfold generatePostIdAux at h
    split_ifs at h with hused
    · exact ih (idx + 1) id h
    · cases h
      intro p hp hcontra
      apply hused
      rw [List.any_eq_true]
      exact ⟨p, hp, by rw [hcontra]; simp⟩

theorem generatePostIdAux_term (stream : Nat → List Nat) (s : AppState) :
    ∀ n idx, (s.allPosts.any fun o => o.postId == arrayBufferToBase64 (stream (idx + n))) =
        false →
      ∃ fuel id, generatePostIdAux stream s idx fuel = some id := by
  intro n
  induction n with
  | zero =>
    intro idx hfresh
    refine ⟨1, arrayBufferToBase64 (stream idx), ?_⟩
    unfold generatePostIdAux
    rw [if_neg (by simpa using hfresh)]
  | succ n ih =>
    intro idx hfresh
    by_cases hused : (s.allPosts.any fun o => o.postId == arrayBufferToBase64 (stream idx)) =
        true
    · obtain ⟨fuel, id, hfuel⟩ := ih (idx + 1) (by rw [show idx + 1 + n = idx + (n + 1) by omega]; exact hfresh)
      refine ⟨fuel + 1, id, ?_⟩
      unfold generatePostIdAux
      rw [if_pos hused]
      exact hfuel
    · refine ⟨1, arrayBufferToBase64 (stream idx), ?_⟩
      unfold generatePostIdAux
      rw [if_neg hused]

theorem generatePostIdAux_diverges (stream : Nat → List Nat) (s : AppState)
    (hall : ∀ n, (s.allPosts.any fun o => o.postId == arrayBufferToBase64 (stream n)) = true) :
    ∀ fuel idx, generatePostIdAux stream s idx fuel = none := by
  intro fuel
  induction fuel with
  | zero => intro idx; rfl
  | succ fuel ih =>
    intro idx
    unfold generatePostIdAux
    rw [if_pos (hall idx)]
    exact ih (idx + 1)

/-- C1: for every snapshot `s` and every importable login key `k`, encoding
`s` keylessly succeeds and decoding the resulting hash body under `k` yields a
snapshot structurally equal to `s` (all fields, including empty
`replyPostIds`/`likes` lists and the order of `rootPostIds`, under the derived
structural equality on `AppState`):
`appStateFromHashWithoutKey (appStateToHashWithoutKey s k) k = s`. -/
theorem claim1_roundtrip (s : AppState) (k : String) (kb : List Nat)
    (hk : logInKeyToCryptoKey k = some kb) :
    ∃ h, appStateToHashWithoutKey s k = some h ∧ appStateFromHashWithoutKey h k = some s := by
  have henc : logInKeyEncrypt k (compressToBase64 (jsonStringify s)) =
      some (arrayBufferToBase64 (subtleAesGcmEncrypt zeroNonce kb
        (textEncode (compressToBase64 (jsonStringify s))))) := by
    unfold logInKeyEncrypt
    rw [hk, Option.map_some']
  refine ⟨_, henc, ?_⟩
  unfold appStateFromHashWithoutKey
  rw [logInKeyDecrypt_logInKeyEncrypt _ hk henc, Option.some_bind,
    decompressBase64_compressToBase64, Option.some_bind, jsonParse_jsonStringify]

/-- C1 witness: the round trip at the empty snapshot and the concrete key
`wKey`, every hypothesis discharged by evaluation. -/
theorem claim1_roundtrip_witness :
    ∃ h, appStateToHashWithoutKey wEmptyState wKey = some h ∧
      appStateFromHashWithoutKey h wKey = some wEmptyState :=
  claim1_roundtrip wEmptyState wKey (List.replicate 16 0) (by decide)

/-- C2 counterexample: `appStateGetHashBodyAndKey` does NOT split on the last
occurrence of the delimiter.  On `"a:b:c"` it returns body `"a"` and key
`"b"` (first-occurrence split, third segment discarded), and the claimed join
identity `ciphertext ++ ":" ++ key = fragment` fails. -/
theorem claim2_split_counterexample :
    appStateGetHashBodyAndKey "a:b:c" = ("a", some "b") ∧
      ("a" ++ ":" ++ "b" : String) ≠ "a:b:c" := by decide

/-- C2 amended: `appStateGetHashBodyAndKey` splits on the FIRST occurrence of
`:` (the key is the text between the first and second delimiter, any later
segments are discarded); the key is absent exactly when the fragment contains
no delimiter; and for fragments whose body and key are delimiter-free — as
every fragment produced by `appStateToHashWithKey` is — the split recovers the
pair exactly, so `body ++ ":" ++ key` rebuilds the fragment. -/
theorem claim2_split_first (f body key : String) :
    ((appStateGetHashBodyAndKey f).2 = none ↔ ':' ∉ f.data) ∧
      (':' ∉ body.data → ':' ∉ key.data →
        appStateGetHashBodyAndKey (body ++ ":" ++ key) = (body, some key)) := by
  constructor
  · unfold appStateGetHashBodyAndKey
    constructor
    · intro h
      by_contra hc
      obtain ⟨a, b, hab, hna⟩ := mem_decomp_first hc
      rw [hab, splitOnColon_first b hna] at h
      cases hsg : splitOnColon b with
      | nil => exact splitOnColon_ne_nil b hsg
      | cons g gs =>
        rw [hsg] at h
        simp at h
    · intro h
      rw [splitOnColon_no_colon h]
  · intro h1 h2
    unfold appStateGetHashBodyAndKey
    have hd : (body ++ ":" ++ key).data = body.data ++ ':' :: key.data := by
      rw [String.data_append, String.data_append]
      simp [show (":" : String).data = [':'] from rfl]
    rw [hd, splitOnColon_first _ h1, splitOnColon_no_colon h2]

/-- C2 witness: the amended behaviour evaluated at concrete fragments. -/
theorem claim2_split_first_witness :
    ((appStateGetHashBodyAndKey "ab:cd").2 = none ↔ ':' ∉ ("ab:cd" : String).data) ∧
      appStateGetHashBodyAndKey ("ab" ++ ":" ++ "cd") = ("ab", some "cd") :=
  ⟨(claim2_split_first "ab:cd" "ab" "cd").1,
    (claim2_split_first "ab:cd" "ab" "cd").2 (by decide) (by decide)⟩

/-- C3: both cipher operations work with imported 128-bit (16-byte) key
material and factor through the AES-GCM model at the fixed all-zero 96-bit
(12-byte) nonce `new Uint8Array(12)`; no other nonce value occurs in either
direction. -/
theorem claim3_fixed_nonce (k v : String) (kb : List Nat)
    (hk : logInKeyToCryptoKey k = some kb) :
    kb.length = 16 ∧ zeroNonce = List.replicate 12 0 ∧ zeroNonce.length = 12 ∧
      logInKeyEncrypt k v =
        some (arrayBufferToBase64 (subtleAesGcmEncrypt zeroNonce kb (textEncode v))) ∧
      ∀ ct, logInKeyDecrypt k ct = (base64ToArrayBuffer ct).bind fun eb =>
        (subtleAesGcmDecrypt zeroNonce kb eb).bind textDecode := by
  refine ⟨(logInKeyToCryptoKey_spec hk).2.1, rfl, rfl, ?_, ?_⟩
  · unfold logInKeyEncrypt
    rw [hk, Option.map_some']
  · intro ct
    unfold logInKeyDecrypt
    rw [hk, Option.some_bind]

/-- C3 witness: the fixed-nonce factoring at the concrete key `wKey`. -/
theorem claim3_fixed_nonce_witness :
    (List.replicate 16 0 : List Nat).length = 16 ∧ zeroNonce = List.replicate 12 0 ∧
      zeroNonce.length = 12 ∧
      logInKeyEncrypt wKey "alice" =
        some (arrayBufferToBase64 (subtleAesGcmEncrypt zeroNonce (List.replicate 16 0)
          (textEncode "alice"))) ∧
      ∀ ct, logInKeyDecrypt wKey ct = (base64ToArrayBuffer ct).bind fun eb =>
        (subtleAesGcmDecrypt zeroNonce (List.replicate 16 0) eb).bind textDecode :=
  claim3_fixed_nonce wKey "alice" (List.replicate 16 0) (by decide)

/-- C4: authentication iterates the snapshot's user records in order and
authenticates the first user whose stored proof equals the derived proof; when
no record matches, no user is authenticated (`none`, the reported
"Log in key is not valid." error).  The hypothesis restricts to importable
candidate keys, for which the model of `logInKeyEncrypt` is total. -/
theorem claim4_login_first_match (k : String) (s : AppState) (kb : List Nat)
    (_hk : logInKeyToCryptoKey k = some kb) :
    (∀ u, onLogInFindUser k s = some u →
      ∃ l1 l2, s.users = l1 ++ u :: l2 ∧
        logInKeyEncrypt k u.username = some u.encryptedUsername ∧
        ∀ u' ∈ l1, logInKeyEncrypt k u'.username ≠ some u'.encryptedUsername) ∧
      (onLogInFindUser k s = none →
        ∀ u ∈ s.users, logInKeyEncrypt k u.username ≠ some u.encryptedUsername) := by
  constructor
  · intro u hu
    unfold onLogInFindUser at hu
    obtain ⟨l1, l2, heq, hpa, hl1⟩ := find?_eq_some_decomp hu
    refine ⟨l1, l2, heq, beq_iff_eq.mp hpa, ?_⟩
    intro u' hu'
    exact beq_eq_false_iff_ne.mp (hl1 u' hu')
  · intro hnone u hu
    unfold onLogInFindUser at hnone
    have := List.find?_eq_none.mp hnone u hu
    exact fun hc => this (beq_iff_eq.mpr hc)

/-- C4 witness: a concrete successful login — the first (only) record of
`wLoginState` matches under `wKey` and is returned. -/
theorem claim4_login_first_match_witness :
    ∃ l1 l2, wLoginState.users = l1 ++ wUser :: l2 ∧
      logInKeyEncrypt wKey wUser.username = some wUser.encryptedUsername ∧
      ∀ u' ∈ l1, logInKeyEncrypt wKey u'.username ≠ some u'.encryptedUsername :=
  (claim4_login_first_match wKey wLoginState (List.replicate 16 0) (by decide)).1
    wUser (by decide)

/-- C5: with both keys importable, `logInKeyEncrypt` is a pure deterministic
function of `(key, username)` — the embedding is a function, so two calls on
equal inputs coincide; for the same key, distinct usernames yield distinct
proofs; and a proof derived under one key never equals the proof derived under
a different key (so comparison-based verification with the wrong key returns
false). -/
theorem claim5_proof_determinism (k k2 u u2 : String) (kb kb2 : List Nat)
    (hk : logInKeyToCryptoKey k = some kb) (hk2 : logInKeyToCryptoKey k2 = some kb2) :
    logInKeyEncrypt k u = logInKeyEncrypt k u ∧
      (u ≠ u2 → logInKeyEncrypt k u ≠ logInKeyEncrypt k u2) ∧
      (k ≠ k2 → logInKeyEncrypt k2 u ≠ logInKeyEncrypt k u) :=
  ⟨rfl, fun h => logInKeyEncrypt_value_injective hk h,
    fun h => (logInKeyEncrypt_key_injective u hk hk2 h).symm⟩

/-- C5 witness: determinism and the two distinctness conclusions at "alice",
"bob" and the concrete keys `wKey` and `wKeyB`. -/
theorem claim5_proof_determinism_witness :
    logInKeyEncrypt wKey "alice" = logInKeyEncrypt wKey "alice" ∧
      logInKeyEncrypt wKey "alice" ≠ logInKeyEncrypt wKey "bob" ∧
      logInKeyEncrypt wKeyB "alice" ≠ logInKeyEncrypt wKey "alice" :=
  ⟨(claim5_proof_determinism wKey wKeyB "alice" "bob" (List.replicate 16 0)
      (4 :: List.replicate 15 0) (by decide) (by decide)).1,
    (claim5_proof_determinism wKey wKeyB "alice" "bob" (List.replicate 16 0)
      (4 :: List.replicate 15 0) (by decide) (by decide)).2.1 (by decide),
    (claim5_proof_determinism wKey wKeyB "alice" "bob" (List.replicate 16 0)
      (4 :: List.replicate 15 0) (by decide) (by decide)).2.2 (by decide)⟩

/-- C6 counterexample: at an externally triggered fragment-change transition,
a decode failure does NOT install the default snapshot.  With the previous
snapshot `wEmptyState` and the undecodable fragment `"!!"`, the hash-change
step keeps `wEmptyState`, which differs from the default `initialAppState`;
the rejected promise is merely logged by `promiseDone`. -/
theorem claim6_fallback_counterexample :
    hashChangeStep 0 wEmptyState "!!" wKey = wEmptyState ∧
      appStateFromHashWithoutKey "!!" wKey = none ∧
      wEmptyState ≠ initialAppState 0 := by decide

/-- C6 amended: the empty fragment installs the default snapshot; on initial
load a missing embedded key or a decode failure reports an error and installs
the default; but on a fragment-change transition a decode failure leaves the
previously installed snapshot in place (no default fallback, no partial
snapshot, no crash — the model is total). -/
theorem claim6_fallback_amended (t : Nat) (hash k : String) (prev : AppState) :
    initialLoad t "" = (initialAppState t, false) ∧
      (hash ≠ "" → appStateHashHasKey hash = false →
        initialLoad t hash = (initialAppState t, true)) ∧
      (hash ≠ "" → appStateFromHashWithKey hash = none →
        initialLoad t hash = (initialAppState t, true)) ∧
      (hash ≠ "" → appStateFromHashWithoutKey hash k = none →
        hashChangeStep t prev hash k = prev) := by
  refine ⟨?_, ?_, ?_, ?_⟩
  · unfold initialLoad
    rw [if_pos rfl]
  · intro h1 h2
    unfold initialLoad
    rw [if_neg h1, if_pos (by rw [h2]; exact Bool.false_ne_true)]
  · intro h1 h3
    unfold initialLoad
    rw [if_neg h1]
    by_cases hkey : appStateHashHasKey hash = true
    · rw [if_neg (by rw [hkey]; exact fun hc => hc rfl), h3]
    · rw [if_pos (by simpa using hkey)]
  · intro h1 h4
    unfold hashChangeStep
    rw [if_neg h1, h4]

/-- C6 witness: the amended behaviour at concrete failing fragments — a
keyless fragment and a corrupt keyed fragment on initial load both fall back
to the default with an error, while the same corrupt fragment at a
hash-change transition keeps the previous snapshot. -/
theorem claim6_fallback_amended_witness :
    initialLoad 0 "x" = (initialAppState 0, true) ∧
      initialLoad 0 "!!:k" = (initialAppState 0, true) ∧
      hashChangeStep 0 wEmptyState "!!" wKey = wEmptyState :=
  ⟨(claim6_fallback_amended 0 "x" wKey wEmptyState).2.1 (by decide) (by decide),
    (claim6_fallback_amended 0 "!!:k" wKey wEmptyState).2.2.1 (by decide) (by decide),
    (claim6_fallback_amended 0 "!!" wKey wEmptyState).2.2.2 (by decide) (by decide)⟩

/-- C7: whenever the keyless encoding succeeds, the keyed encoding is exactly
the keyless hash body, a single `:` delimiter, then the exported key:
`appStateToHashWithKey s k = appStateToHashWithoutKey s k ++ ":" ++ k`. -/
theorem claim7_keyed_encoding (s : AppState) (k h : String)
    (henc : appStateToHashWithoutKey s k = some h) :
    appStateToHashWithKey s k = some (h ++ ":" ++ k) := by
  unfold appStateToHashWithKey
  rw [henc, Option.map_some']

/-- C7 witness: the keyed encoding of the empty snapshot under `wKey`. -/
theorem claim7_keyed_encoding_witness :
    appStateToHashWithKey wEmptyState wKey = some (wHash ++ ":" ++ wKey) :=
  claim7_keyed_encoding wEmptyState wKey wHash (by decide)

/-- C8: no importable login key authenticates as the seeded default user
"iamyarn": its stored proof is the empty string, while `logInKeyEncrypt`
never returns the empty string (the ciphertext always carries the
authentication trailer), so on the initial snapshot the login loop matches no
record and fails. -/
theorem claim8_seeded_user_unreachable (t : Nat) (k : String) (kb : List Nat)
    (hk : logInKeyToCryptoKey k = some kb) :
    (∀ v, logInKeyEncrypt k v ≠ some "") ∧
      onLogInFindUser k (initialAppState t) = none := by
  refine ⟨fun v => logInKeyEncrypt_ne_empty v hk, ?_⟩
  unfold onLogInFindUser initialAppState
  rw [List.find?_eq_none]
  intro u hu
  simp only [List.mem_singleton] at hu
  subst hu
  exact fun hc => logInKeyEncrypt_ne_empty "iamyarn" hk (beq_iff_eq.mp hc)

/-- C8 witness: the concrete key `wKey` fails to authenticate against the
initial snapshot. -/
theorem claim8_seeded_user_unreachable_witness :
    (∀ v, logInKeyEncrypt wKey v ≠ some "") ∧
      onLogInFindUser wKey (initialAppState 0) = none :=
  claim8_seeded_user_unreachable 0 wKey (List.replicate 16 0) (by decide)

/-- C9: for a state whose posts decompose around the first post `p` carrying
the toggled id, `togglePostLike` rewrites exactly that post (users,
rootPostIds and all other posts are untouched); when the acting user already
has a like it removes exactly that user's like records and adds nothing,
otherwise it appends exactly one like record; the at-most-one-like-per-username
invariant is preserved; toggling twice restores the post's original set of
liking usernames; and other users' like records on the post are unchanged. -/
theorem claim9_toggle_like (u : User) (t1 t2 : Nat) (s : AppState) (pid : String)
    (l1 l2 : List Post) (p : Post) (hdecomp : s.allPosts = l1 ++ p :: l2)
    (hpid : p.postId = pid) (hl1 : ∀ q ∈ l1, q.postId ≠ pid)
    (hnodup : (likeNamesOf p).Nodup) :
    (togglePostLike u t1 s pid).users = s.users ∧
      (togglePostLike u t1 s pid).rootPostIds = s.rootPostIds ∧
      (togglePostLike u t1 s pid).allPosts =
        l1 ++ togglePostLikeOnPost u.username t1 p :: l2 ∧
      (likeNamesOf (togglePostLikeOnPost u.username t1 p)).Nodup ∧
      ((p.likes.find? fun o => u.username == o.username).isSome = true →
        (togglePostLikeOnPost u.username t1 p).likes =
          p.likes.filter fun o => !(u.username == o.username)) ∧
      ((p.likes.find? fun o => u.username == o.username).isSome = false →
        (togglePostLikeOnPost u.username t1 p).likes =
          p.likes ++ [{ username := u.username, likedAt := t1 }]) ∧
      (togglePostLike u t2 (togglePostLike u t1 s pid) pid).allPosts =
        l1 ++ togglePostLikeOnPost u.username t2 (togglePostLikeOnPost u.username t1 p) :: l2 ∧
      (∀ name, name ∈ likeNamesOf
          (togglePostLikeOnPost u.username t2 (togglePostLikeOnPost u.username t1 p)) ↔
        name ∈ likeNamesOf p) ∧
      ∀ o : Like, o.username ≠ u.username →
        ((o ∈ (togglePostLikeOnPost u.username t1 p).likes) ↔ o ∈ p.likes) := by
  have hfirst : (togglePostLike u t1 s pid).allPosts =
      l1 ++ togglePostLikeOnPost u.username t1 p :: l2 :=
    togglePostLike_decomp u t1 s pid l1 l2 p hdecomp hpid hl1
  refine ⟨rfl, rfl, hfirst, togglePostLikeOnPost_nodup _ _ _ hnodup, ?_, ?_, ?_, ?_, ?_⟩
  · intro hsome
    unfold togglePostLikeOnPost
    rw [if_pos hsome]
  · intro hnone
    unfold togglePostLikeOnPost
    rw [if_neg (by rw [hnone]; exact Bool.false_ne_true)]
  · exact togglePostLike_decomp u t2 _ pid l1 l2 _ hfirst
      (by rw [togglePostLikeOnPost_postId]; exact hpid) hl1
  · exact togglePostLikeOnPost_twice_names u.username t1 t2 p
  · exact fun o ho => togglePostLikeOnPost_other_users u.username t1 p o ho

/-- C9 witness: the toggle behaviour at a concrete single-post state where
"bob" already likes the post and "alice" toggles it. -/
theorem claim9_toggle_like_witness :
    (togglePostLike wUser 5 wToggleState "p1").users = wToggleState.users ∧
      (togglePostLike wUser 5 wToggleState "p1").rootPostIds = wToggleState.rootPostIds ∧
      (togglePostLike wUser 5 wToggleState "p1").allPosts =
        [] ++ togglePostLikeOnPost wUser.username 5 wLikedPost :: [] ∧
      (likeNamesOf (togglePostLikeOnPost wUser.username 5 wLikedPost)).Nodup ∧
      ((wLikedPost.likes.find? fun o => wUser.username == o.username).isSome = true →
        (togglePostLikeOnPost wUser.username 5 wLikedPost).likes =
          wLikedPost.likes.filter fun o => !(wUser.username == o.username)) ∧
      ((wLikedPost.likes.find? fun o => wUser.username == o.username).isSome = false →
        (togglePostLikeOnPost wUser.username 5 wLikedPost).likes =
          wLikedPost.likes ++ [{ username := wUser.username, likedAt := 5 }]) ∧
      (togglePostLike wUser 6 (togglePostLike wUser 5 wToggleState "p1") "p1").allPosts =
        [] ++ togglePostLikeOnPost wUser.username 6
          (togglePostLikeOnPost wUser.username 5 wLikedPost) :: [] ∧
      (∀ name, name ∈ likeNamesOf (togglePostLikeOnPost wUser.username 6
          (togglePostLikeOnPost wUser.username 5 wLikedPost)) ↔
        name ∈ likeNamesOf wLikedPost) ∧
      ∀ o : Like, o.username ≠ wUser.username →
        ((o ∈ (togglePostLikeOnPost wUser.username 5 wLikedPost).likes) ↔
          o ∈ wLikedPost.likes) :=
  claim9_toggle_like wUser 5 6 wToggleState "p1" [] [] wLikedPost rfl rfl
    (by simp) (by decide)

/-- C10 counterexample: the termination condition of the claim is false.  In
`cState` the 3-byte id space has an unused id (the draw `[0, 0, 1]` encodes to
an id used by no post), yet with the adversarial constant random stream
`cStream` — which only ever draws the bytes of the already-used id "AAAA" —
the retry loop of `generatePostId` never returns, whatever the fuel. -/
theorem claim10_fresh_id_counterexample :
    generatePostIdDiverges cStream cState ∧
      (cState.allPosts.any fun o => o.postId == arrayBufferToBase64 [0, 0, 1]) = false :=
  ⟨fun fuel => generatePostIdAux_diverges cStream cState
      (fun _ => show (cState.allPosts.any
        fun o => o.postId == arrayBufferToBase64 [0, 0, 0]) = true by decide) fuel 0,
    by decide⟩

/-- C10 amended: whenever `generatePostId` returns an id, that id differs from
the `postId` of every post already in the state (freshness postcondition); and
the retry loop terminates for some fuel exactly when the injected random
stream eventually draws an id not already in use — the mere existence of an
unused id in the 3-byte space does not guarantee termination. -/
theorem claim10_fresh_id (stream : Nat → List Nat) (s : AppState) :
    (∀ fuel id, generatePostId stream s fuel = some id →
      ∀ p ∈ s.allPosts, p.postId ≠ id) ∧
      ((∃ n, (s.allPosts.any fun o => o.postId == arrayBufferToBase64 (stream n)) = false) →
        ∃ fuel id, generatePostId stream s fuel = some id) ∧
      ((∀ n, (s.allPosts.any fun o => o.postId == arrayBufferToBase64 (stream n)) = true) →
        generatePostIdDiverges stream s) := by
  refine ⟨?_, ?_, ?_⟩
  · intro fuel id h
    exact generatePostIdAux_fresh stream s fuel 0 id h
  · rintro ⟨n, hn⟩
    have := generatePostIdAux_term stream s n 0 (by simpa using hn)
    exact this
  · intro hall fuel
    exact generatePostIdAux_diverges stream s hall fuel 0

/-- C10 witness: on the empty state the first draw is already unused, so the
loop terminates with a fresh id. -/
theorem claim10_fresh_id_witness :
    ∃ fuel id, generatePostId cStream wEmptyState fuel = some id :=
  (claim10_fresh_id cStream wEmptyState).2.1 ⟨0, by decide⟩

end Yarn
